import Mathlib

/-!
Verification of the heredity inference engine (`src/heredity.py`).

The Python program is shallowly embedded over `ℚ`: the numeric literals of
`PROBS` become exact rationals, dictionaries keyed by person become
association lists, Python sets of names become lists of names with decidable
membership, and the `itertools`-based `powerset` becomes a list of sublists
enumerated by size.  A computation that raises in Python (the division by a
zero histogram sum in `normalize`) is modelled with `Except`.
-/

namespace Heredity

open List

/-- One individual as produced by `load_data` (`src/heredity.py:97-116`):
a name, optional mother/father names, optional trait evidence. -/
structure Person where
  name : String
  mother : Option String
  father : Option String
  trait : Option Bool
deriving DecidableEq, Repr

/-- Python `PROBS["mutation"]` (`src/heredity.py:36`). -/
def PROBS_mutation : ℚ := 1/100

/-- Python `PROBS["gene"]` (`src/heredity.py:8-12`).  The dictionary has the keys
2, 1, 0 only; other arguments never occur at call sites (every gene count
is produced by a `2 if ... else 1 if ... else 0` expression). -/
def PROBS_gene : Nat → ℚ
  | 2 => 1/100
  | 1 => 3/100
  | 0 => 96/100
  | _ => 0

/-- Python `PROBS["trait"]` (`src/heredity.py:14-33`). -/
def PROBS_trait : Nat → Bool → ℚ
  | 2, true => 65/100
  | 2, false => 35/100
  | 1, true => 56/100
  | 1, false => 44/100
  | 0, true => 1/100
  | 0, false => 99/100
  | _, _ => 0

/-- Python `get_unknown_parent_gene_probability` (`src/heredity.py:217-233`). -/
def get_unknown_parent_gene_probability (child_has_gene : Bool) : ℚ :=
  if child_has_gene then
    PROBS_gene 0 * PROBS_mutation
      + PROBS_gene 1 * (1/2 * (1 - PROBS_mutation) + 1/2 * PROBS_mutation)
      + PROBS_gene 2 * (1 - PROBS_mutation)
  else
    PROBS_gene 0 * (1 - PROBS_mutation)
      + PROBS_gene 1 * (1/2 * (1 - PROBS_mutation) + 1/2 * PROBS_mutation)
      + PROBS_gene 2 * PROBS_mutation

/-- Python `get_parent_gene_probability` (`src/heredity.py:192-214`).  The Python
function falls through (returning `None`) when `parent_genes` is outside
{0,1,2}; that case never occurs at call sites and is modelled as `0`. -/
def get_parent_gene_probability (child_has_gene : Bool) (parent : Option String)
    (parent_genes : Nat) : ℚ :=
  match parent with
  | some _ =>
    if child_has_gene then
      if parent_genes = 0 then PROBS_mutation
      else if parent_genes = 1 then 1/2 * (1 - PROBS_mutation) + 1/2 * PROBS_mutation
      else if parent_genes = 2 then 1 - PROBS_mutation
      else 0
    else
      if parent_genes = 0 then 1 - PROBS_mutation
      else if parent_genes = 1 then 1/2 * (1 - PROBS_mutation) + 1/2 * PROBS_mutation
      else if parent_genes = 2 then PROBS_mutation
      else 0
  | none => get_unknown_parent_gene_probability child_has_gene

/-- The gene count read off an assignment:
`2 if person in two_genes else 1 if person in one_gene else 0`
(`src/heredity.py:150`). -/
def geneCount (person : String) (one_gene two_genes : List String) : Nat :=
  if person ∈ two_genes then 2 else if person ∈ one_gene then 1 else 0

/-- The gene count of an optional parent reference, as evaluated by
`2 if mother in two_genes else 1 if mother in one_gene else 0`
(`src/heredity.py:160-161`): a `None` parent is a member of neither name
set, so its count evaluates to 0. -/
def optGeneCount (parent : Option String) (one_gene two_genes : List String) : Nat :=
  match parent with
  | some m => geneCount m one_gene two_genes
  | none => 0

/-- The `gene_prob` computed for one individual inside the loop of
`joint_probability` (`src/heredity.py:154-185`). -/
def personGeneProb (family : Person) (one_gene two_genes : List String) : ℚ :=
  let gene := geneCount family.name one_gene two_genes
  if family.mother = none ∧ family.father = none then
    PROBS_gene gene
  else
    let mother_genes := optGeneCount family.mother one_gene two_genes
    let father_genes := optGeneCount family.father one_gene two_genes
    if gene = 0 then
      get_parent_gene_probability false family.mother mother_genes *
        get_parent_gene_probability false family.father father_genes
    else if gene = 1 then
      get_parent_gene_probability true family.mother mother_genes *
          get_parent_gene_probability false family.father father_genes +
        get_parent_gene_probability false family.mother mother_genes *
          get_parent_gene_probability true family.father father_genes
    else if gene = 2 then
      get_parent_gene_probability true family.mother mother_genes *
        get_parent_gene_probability true family.father father_genes
    else 0

/-- Python `joint_probability` (`src/heredity.py:131-189`): the running product
`joint_p *= gene_prob * trait_prob` over every individual. -/
def joint_probability (people : List Person)
    (one_gene two_genes have_trait : List String) : ℚ :=
  people.foldl
    (fun joint_p family =>
      joint_p *
        (personGeneProb family one_gene two_genes *
          PROBS_trait (geneCount family.name one_gene two_genes)
            (decide (family.name ∈ have_trait))))
    1

/-- Python `powerset` (`src/heredity.py:119-128`): all subsets of `s`, enumerated
(as `itertools.combinations` does) by size `r = 0, ..., len(s)`. -/
def powerset (s : List String) : List (List String) :=
  (List.range (s.length + 1)).flatMap fun r => List.sublistsLen r s

/-- The `fails_evidence` test of `main` (`src/heredity.py:68-72`). -/
def fails_evidence (people : List Person) (have_trait : List String) : Bool :=
  people.any fun person =>
    match person.trait with
    | some t => t != decide (person.name ∈ have_trait)
    | none => false

/-- The list of names of the dataset (`names = set(people)`,
`src/heredity.py:64`). -/
def names (people : List Person) : List String :=
  people.map Person.name

/-- The sequence of `(one_gene, two_genes, have_trait)` triples for which
`main` invokes `joint_probability` (`src/heredity.py:65-82`): trait subsets
contradicting evidence are discarded before any gene enumeration, then
`one_gene` ranges over all subsets of the names and `two_genes` over all
subsets of `names - one_gene`. -/
def evaluatedAssignments (people : List Person) :
    List (List String × List String × List String) :=
  ((powerset (names people)).filter fun ht => !fails_evidence people ht).flatMap
    fun ht =>
      (powerset (names people)).flatMap fun og =>
        ((powerset ((names people).filter fun n => decide (n ∉ og))).map
          fun tg => (og, tg, ht))

/-- One individual's pair of histograms in `probabilities`
(`src/heredity.py:48-61`): buckets for gene counts 2, 1, 0 and for trait
True, False. -/
structure PersonProbs where
  gene2 : ℚ
  gene1 : ℚ
  gene0 : ℚ
  traitTrue : ℚ
  traitFalse : ℚ
deriving DecidableEq, Repr

/-- The all-zero initial histograms (`src/heredity.py:50-59`). -/
def PersonProbs.zero : PersonProbs := ⟨0, 0, 0, 0, 0⟩

/-- The sum of one individual's gene histogram, in the bucket order
2, 1, 0 of the source dictionary. -/
def geneSum (pp : PersonProbs) : ℚ := pp.gene2 + pp.gene1 + pp.gene0

/-- The sum of one individual's trait histogram. -/
def traitSum (pp : PersonProbs) : ℚ := pp.traitTrue + pp.traitFalse

/-- The per-person effect of `update` (`src/heredity.py:236-249`): add `p`
to the gene bucket and the trait bucket selected by the assignment. -/
def bump (name : String) (one_gene two_genes have_trait : List String) (p : ℚ)
    (pp : PersonProbs) : PersonProbs :=
  let gene := geneCount name one_gene two_genes
  let trait := decide (name ∈ have_trait)
  { gene2 := pp.gene2 + (if gene = 2 then p else 0)
    gene1 := pp.gene1 + (if gene = 1 then p else 0)
    gene0 := pp.gene0 + (if gene = 0 then p else 0)
    traitTrue := pp.traitTrue + (if trait then p else 0)
    traitFalse := pp.traitFalse + (if trait then 0 else p) }

/-- Python `update` (`src/heredity.py:236-249`), over an association list keyed by
person name. -/
def update (probabilities : List (String × PersonProbs))
    (one_gene two_genes have_trait : List String) (p : ℚ) :
    List (String × PersonProbs) :=
  probabilities.map fun entry =>
    (entry.1, bump entry.1 one_gene two_genes have_trait p entry.2)

/-- The zero-initialized `probabilities` table of `main`
(`src/heredity.py:48-61`). -/
def initialProbabilities (people : List Person) : List (String × PersonProbs) :=
  people.map fun person => (person.name, PersonProbs.zero)

/-- The `probabilities` table after the enumeration loop of `main`
(`src/heredity.py:63-82`): every evaluated assignment's joint probability
folded in by `update`. -/
def accumulatedProbabilities (people : List Person) :
    List (String × PersonProbs) :=
  (evaluatedAssignments people).foldl
    (fun probs a => update probs a.1 a.2.1 a.2.2
      (joint_probability people a.1 a.2.1 a.2.2))
    (initialProbabilities people)

/-- Python `normalize` applied to one individual (`src/heredity.py:258-262`):
each bucket is divided by its own histogram's sum.  Python raises an
uninformative `ZeroDivisionError` when a sum is zero; the exception carries
no reference to the individual, which the information-free `Except.error ()`
models. -/
def normalizePerson (pp : PersonProbs) : Except Unit PersonProbs :=
  if geneSum pp = 0 then Except.error ()
  else if traitSum pp = 0 then Except.error ()
  else Except.ok
    { gene2 := pp.gene2 / geneSum pp
      gene1 := pp.gene1 / geneSum pp
      gene0 := pp.gene0 / geneSum pp
      traitTrue := pp.traitTrue / traitSum pp
      traitFalse := pp.traitFalse / traitSum pp }

/-- Python `normalize` (`src/heredity.py:252-262`). -/
def normalize : List (String × PersonProbs) → Except Unit (List (String × PersonProbs))
  | [] => Except.ok []
  | entry :: rest =>
    match normalizePerson entry.2 with
    | Except.error e => Except.error e
    | Except.ok pp =>
      match normalize rest with
      | Except.error e => Except.error e
      | Except.ok rest' => Except.ok ((entry.1, pp) :: rest')

/-- One raw CSV row as handed to `load_data` (`src/heredity.py:97-116`):
the four string fields `name, mother, father, trait`. -/
structure Row where
  name : String
  mother : String
  father : String
  trait : String
deriving DecidableEq, Repr

/-- Python `load_data` (`src/heredity.py:97-116`): `row["mother"] or None` maps a
blank field to no-parent and keeps any non-blank string; the trait field is
`True` for `"1"`, `False` for `"0"`, and unknown otherwise.  No field is
validated and the function cannot fail. -/
def load_data (rows : List Row) : List Person :=
  rows.map fun row =>
    { name := row.name
      mother := if row.mother = "" then none else some row.mother
      father := if row.father = "" then none else some row.father
      trait :=
        if row.trait = "1" then some true
        else if row.trait = "0" then some false
        else none }

/-- Spec §4.2 `transmissionProbability(parentGeneCount)`: the probability
that a parent with the given gene count transmits the variant copy. -/
def transmissionProbability (parentGeneCount : Nat) : ℚ :=
  if parentGeneCount = 0 then PROBS_mutation
  else if parentGeneCount = 1 then
    1/2 * (1 - PROBS_mutation) + 1/2 * PROBS_mutation
  else 1 - PROBS_mutation

/-- Spec §4.2 `childGeneDistribution(motherGeneCount, fatherGeneCount)`:
P(0) = (1−tₘ)(1−t_f), P(1) = tₘ(1−t_f) + (1−tₘ)t_f, P(2) = tₘ·t_f. -/
def childGeneDistribution (motherGeneCount fatherGeneCount childGeneCount : Nat) : ℚ :=
  let tm := transmissionProbability motherGeneCount
  let tf := transmissionProbability fatherGeneCount
  if childGeneCount = 0 then (1 - tm) * (1 - tf)
  else if childGeneCount = 1 then tm * (1 - tf) + (1 - tm) * tf
  else tm * tf

/-- The joint probability exactly as claim C1 words it: the product, over
every individual, of a gene-count term (the prior for an individual with no
recorded parents, otherwise `childGeneDistribution` of the mother's and
father's gene counts as read from the same assignment, an absent parent
reading as count 0) times the trait term. -/
def jointProbabilityClaim (people : List Person)
    (one_gene two_genes have_trait : List String) : ℚ :=
  (people.map fun family =>
    (if family.mother = none ∧ family.father = none then
      PROBS_gene (geneCount family.name one_gene two_genes)
    else
      childGeneDistribution (optGeneCount family.mother one_gene two_genes)
        (optGeneCount family.father one_gene two_genes)
        (geneCount family.name one_gene two_genes)) *
      PROBS_trait (geneCount family.name one_gene two_genes)
        (decide (family.name ∈ have_trait))).prod

/-- Function `get_parent_gene_probability` instrumented with a flag recording
whether the `parent is None` branch — the call to
`get_unknown_parent_gene_probability` (`src/heredity.py:213-214`) — was
taken. -/
def get_parent_gene_probability_t (child_has_gene : Bool) (parent : Option String)
    (parent_genes : Nat) : ℚ × Bool :=
  match parent with
  | some _ => (get_parent_gene_probability child_has_gene parent parent_genes, false)
  | none => (get_unknown_parent_gene_probability child_has_gene, true)

/-- The per-person `gene_prob` of `joint_probability`, instrumented: the
flag is the disjunction of the flags of exactly the
`get_parent_gene_probability` calls the taken branch performs
(`src/heredity.py:156-185`). -/
def personGeneProb_t (family : Person) (one_gene two_genes : List String) : ℚ × Bool :=
  let gene := geneCount family.name one_gene two_genes
  if family.mother = none ∧ family.father = none then
    (PROBS_gene gene, false)
  else
    let mother_genes := optGeneCount family.mother one_gene two_genes
    let father_genes := optGeneCount family.father one_gene two_genes
    if gene = 0 then
      let m := get_parent_gene_probability_t false family.mother mother_genes
      let f := get_parent_gene_probability_t false family.father father_genes
      (m.1 * f.1, m.2 || f.2)
    else if gene = 1 then
      let mt := get_parent_gene_probability_t true family.mother mother_genes
      let ff := get_parent_gene_probability_t false family.father father_genes
      let mf := get_parent_gene_probability_t false family.mother mother_genes
      let ft := get_parent_gene_probability_t true family.father father_genes
      (mt.1 * ff.1 + mf.1 * ft.1, mt.2 || ff.2 || mf.2 || ft.2)
    else if gene = 2 then
      let m := get_parent_gene_probability_t true family.mother mother_genes
      let f := get_parent_gene_probability_t true family.father father_genes
      (m.1 * f.1, m.2 || f.2)
    else (0, false)

/-- Function `joint_probability` instrumented: the running product together with
whether any individual's evaluation invoked
`get_unknown_parent_gene_probability`. -/
def joint_probability_t (people : List Person)
    (one_gene two_genes have_trait : List String) : ℚ × Bool :=
  people.foldl
    (fun acc family =>
      let gp := personGeneProb_t family one_gene two_genes
      (acc.1 *
        (gp.1 *
          PROBS_trait (geneCount family.name one_gene two_genes)
            (decide (family.name ∈ have_trait))),
        acc.2 || gp.2))
    (1, false)

/-- A trait subset satisfies all recorded evidence: an individual with
evidence `true` is in it, an individual with evidence `false` is not. -/
def satisfiesEvidence (people : List Person) (ht : List String) : Prop :=
  ∀ p ∈ people, ∀ t : Bool, p.trait = some t → (p.name ∈ ht ↔ t = true)

/-- Bucketwise addition of histogram records. -/
def addPP (x y : PersonProbs) : PersonProbs :=
  ⟨x.gene2 + y.gene2, x.gene1 + y.gene1, x.gene0 + y.gene0,
    x.traitTrue + y.traitTrue, x.traitFalse + y.traitFalse⟩

/-- The one-assignment increment `update` adds for a given person: `p` in
the gene bucket and trait bucket the assignment selects, `0` elsewhere. -/
def bumpDelta (name : String) (a : List String × List String × List String)
    (p : ℚ) : PersonProbs :=
  ⟨if geneCount name a.1 a.2.1 = 2 then p else 0,
    if geneCount name a.1 a.2.1 = 1 then p else 0,
    if geneCount name a.1 a.2.1 = 0 then p else 0,
    if decide (name ∈ a.2.2) then p else 0,
    if decide (name ∈ a.2.2) then 0 else p⟩

/-- Bucketwise sum of a list of histogram records. -/
def sumPP (l : List PersonProbs) : PersonProbs :=
  l.foldr addPP PersonProbs.zero

/-- The total mass `main`'s loop accumulates into one person's gene bucket
`g`: the sum, over every evaluated assignment, of the joint probability of
the assignments that give that person gene count `g`. -/
def contribGene (people : List Person) (name : String) (g : Nat) : ℚ :=
  ((evaluatedAssignments people).map fun a =>
    if geneCount name a.1 a.2.1 = g then joint_probability people a.1 a.2.1 a.2.2
    else 0).sum

/-- The total mass `main`'s loop accumulates into one person's trait bucket
`t`. -/
def contribTrait (people : List Person) (name : String) (t : Bool) : ℚ :=
  ((evaluatedAssignments people).map fun a =>
    if decide (name ∈ a.2.2) = t then joint_probability people a.1 a.2.1 a.2.2
    else 0).sum

/-- A family with an individual whose mother is recorded but whose father
is not: the configuration on which the virtual-parent path of
`get_parent_gene_probability` is live. -/
def cexPeople : List Person :=
  [⟨"m", none, none, none⟩, ⟨"c", some "m", none, none⟩]

/-- A three-person family: two founders and their child. -/
def triofamily : List Person :=
  [⟨"m", none, none, none⟩, ⟨"f", none, none, none⟩, ⟨"c", some "m", some "f", none⟩]

/-- A single founder with no evidence. -/
def onePerson : List Person := [⟨"p", none, none, none⟩]

/-- A single individual with trait evidence `true`. -/
def onePersonTrait : List Person := [⟨"a", none, none, some true⟩]

/-- Two unrelated founders with no evidence. -/
def founders2 : List Person := [⟨"a", none, none, none⟩, ⟨"b", none, none, none⟩]

/-- A concrete nonzero histogram table. -/
def demoProbs : List (String × PersonProbs) :=
  [("a", ⟨1, 2, 1, 3, 1⟩)]

/-- A row with an unknown parent reference, partial parentage and a
malformed trait field. -/
def badRows : List Row := [⟨"child", "ghost", "", "2"⟩]

/-- Sum of a rational-valued function over a list of subsets. -/
def sumOver (L : List (List String)) (φ : List String → ℚ) : ℚ :=
  (L.map φ).sum

/-- Product of a rational-valued function over a list of names. -/
def prodOver (ns : List String) (f : String → ℚ) : ℚ :=
  (ns.map f).prod

/-! ## Helper lemmas -/

theorem foldl_mul_eq_prod (l : List Person) (g : Person → ℚ) (init : ℚ) :
    l.foldl (fun a x => a * g x) init = init * (l.map g).prod := by
  induction l generalizing init with
  | nil => simp
  | cons x xs ih => simp [ih, mul_assoc]

theorem joint_probability_eq_prod (people : List Person) (og tg ht : List String) :
    joint_probability people og tg ht
      = (people.map fun f =>
          personGeneProb f og tg *
            PROBS_trait (geneCount f.name og tg) (decide (f.name ∈ ht))).prod := by
  rw [joint_probability, foldl_mul_eq_prod, one_mul]

theorem geneCount_cases (x : String) (og tg : List String) :
    geneCount x og tg = 0 ∨ geneCount x og tg = 1 ∨ geneCount x og tg = 2 := by
  unfold geneCount
  by_cases h2 : x ∈ tg <;> by_cases h1 : x ∈ og <;> simp [h1, h2]

theorem optGeneCount_cases (m : Option String) (og tg : List String) :
    optGeneCount m og tg = 0 ∨ optGeneCount m og tg = 1 ∨ optGeneCount m og tg = 2 := by
  cases m with
  | none => left; rfl
  | some x => exact geneCount_cases x og tg

theorem getP_true_eq_transmission (par : String) (g : Nat)
    (hg : g = 0 ∨ g = 1 ∨ g = 2) :
    get_parent_gene_probability true (some par) g = transmissionProbability g := by
  rcases hg with rfl | rfl | rfl <;> rfl

theorem getP_false_eq_transmission (par : String) (g : Nat)
    (hg : g = 0 ∨ g = 1 ∨ g = 2) :
    get_parent_gene_probability false (some par) g = 1 - transmissionProbability g := by
  rcases hg with rfl | rfl | rfl <;>
    norm_num [get_parent_gene_probability, transmissionProbability, PROBS_mutation]

theorem personGeneProb_claim_eq (f : Person) (og tg : List String)
    (hm : f.mother ≠ none) (hf : f.father ≠ none) :
    personGeneProb f og tg
      = childGeneDistribution (optGeneCount f.mother og tg)
          (optGeneCount f.father og tg) (geneCount f.name og tg) := by
  cases hmo : f.mother with
  | none => exact absurd hmo hm
  | some m =>
  cases hfo : f.father with
  | none => exact absurd hfo hf
  | some fa =>
  have hmg := optGeneCount_cases (some m) og tg
  have hfg := optGeneCount_cases (some fa) og tg
  simp only [personGeneProb, childGeneDistribution, hmo, hfo]
  rw [if_neg (by simp :
    ¬((some m : Option String) = none ∧ (some fa : Option String) = none))]
  rw [getP_true_eq_transmission m _ hmg, getP_true_eq_transmission fa _ hfg,
    getP_false_eq_transmission m _ hmg, getP_false_eq_transmission fa _ hfg]
  rcases geneCount_cases f.name og tg with hg | hg | hg <;> simp [hg]

/-! ## Claim theorems -/

/-- C2: for a known (non-`None`) parent, the transmit probability is μ for
0 copies, 1−μ for 2 copies, and the explicit two-path value
0.5·(1−μ) + 0.5·μ for 1 copy; the does-not-transmit probabilities are the
complements 1−μ, μ and the same two-path value; and μ = 0.01. -/
theorem claim_C2_transmission_values (par : String) :
    get_parent_gene_probability true (some par) 0 = PROBS_mutation ∧
    get_parent_gene_probability true (some par) 2 = 1 - PROBS_mutation ∧
    get_parent_gene_probability true (some par) 1
      = 1/2 * (1 - PROBS_mutation) + 1/2 * PROBS_mutation ∧
    get_parent_gene_probability false (some par) 0 = 1 - PROBS_mutation ∧
    get_parent_gene_probability false (some par) 2 = PROBS_mutation ∧
    get_parent_gene_probability false (some par) 1
      = 1/2 * (1 - PROBS_mutation) + 1/2 * PROBS_mutation ∧
    PROBS_mutation = 1/100 :=
  ⟨rfl, rfl, rfl, rfl, rfl, rfl, rfl⟩

/-- Witness for C2 at the concrete parent name `"m"`. -/
theorem claim_C2_transmission_values_witness :
    get_parent_gene_probability true (some "m") 0 = PROBS_mutation ∧
    get_parent_gene_probability true (some "m") 2 = 1 - PROBS_mutation ∧
    get_parent_gene_probability true (some "m") 1
      = 1/2 * (1 - PROBS_mutation) + 1/2 * PROBS_mutation ∧
    get_parent_gene_probability false (some "m") 0 = 1 - PROBS_mutation ∧
    get_parent_gene_probability false (some "m") 2 = PROBS_mutation ∧
    get_parent_gene_probability false (some "m") 1
      = 1/2 * (1 - PROBS_mutation) + 1/2 * PROBS_mutation ∧
    PROBS_mutation = 1/100 :=
  claim_C2_transmission_values "m"

/-- C10: transmit and does-not-transmit probabilities are complementary for
every parent gene count in {0,1,2} and for the unknown-parent case (whose
complementarity rests on the gene prior summing to 1), in exact
arithmetic. -/
theorem claim_C10_complementary (par : String) :
    (get_parent_gene_probability true (some par) 0
        + get_parent_gene_probability false (some par) 0 = 1) ∧
    (get_parent_gene_probability true (some par) 1
        + get_parent_gene_probability false (some par) 1 = 1) ∧
    (get_parent_gene_probability true (some par) 2
        + get_parent_gene_probability false (some par) 2 = 1) ∧
    (get_unknown_parent_gene_probability true
        + get_unknown_parent_gene_probability false = 1) := by
  norm_num [get_parent_gene_probability, get_unknown_parent_gene_probability,
    PROBS_mutation, PROBS_gene]

/-- Witness for C10 at the concrete parent name `"m"`. -/
theorem claim_C10_complementary_witness :
    (get_parent_gene_probability true (some "m") 0
        + get_parent_gene_probability false (some "m") 0 = 1) ∧
    (get_parent_gene_probability true (some "m") 1
        + get_parent_gene_probability false (some "m") 1 = 1) ∧
    (get_parent_gene_probability true (some "m") 2
        + get_parent_gene_probability false (some "m") 2 = 1) ∧
    (get_unknown_parent_gene_probability true
        + get_unknown_parent_gene_probability false = 1) :=
  claim_C10_complementary "m"

/-- C1 counterexample: for an individual whose mother is recorded but whose
father is not, `joint_probability` does not use the child-gene-distribution
value computed from the parents' assignment gene counts (the absent father
reading as count 0): it blends in the virtual-parent prior instead.  The
claim's product formula therefore fails on this family. -/
theorem claim_C1_counterexample :
    joint_probability cexPeople [] [] [] ≠ jointProbabilityClaim cexPeople [] [] [] := by
  simp only [cexPeople, joint_probability, jointProbabilityClaim, personGeneProb,
    geneCount, optGeneCount, get_parent_gene_probability,
    get_unknown_parent_gene_probability, childGeneDistribution,
    transmissionProbability, PROBS_gene, PROBS_trait, PROBS_mutation,
    List.foldl_cons, List.foldl_nil, List.map_cons, List.map_nil, List.prod_cons,
    List.prod_nil, List.not_mem_nil, reduceCtorEq, false_and,
    if_false, ite_false, Bool.false_eq_true]
  norm_num

/-- C1 amended: restricted to family mappings in which every individual has
both parents recorded or neither, `joint_probability` returns the product,
over every individual, of the claimed gene-count term (the prior for a
founder, else the child-gene-distribution value at the parents' assignment
gene counts) times the trait term. -/
theorem claim_C1_joint_probability_product (people : List Person)
    (og tg ht : List String)
    (hv : ∀ p ∈ people, (p.mother = none ∧ p.father = none) ∨
      (p.mother ≠ none ∧ p.father ≠ none))
    (hdisj : ∀ x ∈ og, x ∉ tg) :
    joint_probability people og tg ht = jointProbabilityClaim people og tg ht := by
  rw [joint_probability_eq_prod, jointProbabilityClaim]
  refine congrArg List.prod (List.map_congr_left fun f hf => ?_)
  rcases hv f hf with ⟨hm, hfa⟩ | ⟨hm, hfa⟩
  · have h : f.mother = none ∧ f.father = none := ⟨hm, hfa⟩
    rw [personGeneProb, if_pos h, if_pos h]
  · have h : ¬(f.mother = none ∧ f.father = none) := fun hc => hm hc.1
    rw [if_neg h, personGeneProb_claim_eq f og tg hm hfa]

/-- Witness for the amended C1 at a concrete two-founders-and-child family. -/
theorem claim_C1_joint_probability_product_witness :
    joint_probability triofamily ["m"] ["c"] ["c"]
      = jointProbabilityClaim triofamily ["m"] ["c"] ["c"] :=
  claim_C1_joint_probability_product triofamily ["m"] ["c"] ["c"]
    (by decide) (by decide)

/-- C7 counterexample: a record with an unknown parent reference
(`"ghost"` names nobody), partial parentage (mother present, father blank)
and a malformed trait field (`"2"`) is loaded without any error:
`load_data` returns a dataset, keeping the dangling reference and turning
the malformed trait into unknown. -/
theorem claim_C7_counterexample :
    load_data badRows = [⟨"child", some "ghost", none, none⟩] := by
  decide

/-- C7 amended: `load_data` performs no validation and cannot fail: every
row is loaded; a blank parent field becomes no-parent while any non-blank
parent string is kept verbatim (even when it names nobody, and even when
only one of the two parents is blank), and a trait field other than `"1"`
or `"0"` is treated as unknown. -/
theorem claim_C7_load_data_total (rows : List Row) (row : Row) (h : row ∈ rows) :
    (load_data rows).length = rows.length ∧
    ({ name := row.name
       mother := if row.mother = "" then none else some row.mother
       father := if row.father = "" then none else some row.father
       trait := if row.trait = "1" then some true
                else if row.trait = "0" then some false
                else none } : Person) ∈ load_data rows := by
  refine ⟨by simp [load_data], ?_⟩
  exact List.mem_map_of_mem _ h

/-- Witness for the amended C7 on the malformed record. -/
theorem claim_C7_load_data_total_witness :
    (load_data badRows).length = badRows.length ∧
    ({ name := "child"
       mother := if "ghost" = "" then none else some "ghost"
       father := if "" = "" then none else some ""
       trait := if "2" = "1" then some true
                else if "2" = "0" then some false
                else none } : Person) ∈ load_data badRows :=
  claim_C7_load_data_total badRows ⟨"child", "ghost", "", "2"⟩ (by decide)

/-- C3: every `(one_gene, two_genes, have_trait)` triple for which `main`
evaluates `joint_probability` satisfies all recorded trait evidence: an
individual with evidence `true` is in the trait subset, one with evidence
`false` is not, and unknown evidence imposes no constraint (the filter
inspects only individuals with recorded evidence, and it discards a
contradicting trait subset before any gene enumeration for it). -/
theorem claim_C3_evidence_respected (people : List Person) (og tg ht : List String)
    (hmem : (og, tg, ht) ∈ evaluatedAssignments people) :
    satisfiesEvidence people ht := by
  unfold evaluatedAssignments at hmem
  simp only [List.mem_flatMap, List.mem_filter, List.mem_map, Prod.mk.injEq] at hmem
  obtain ⟨ht', ⟨-, hpass⟩, og', -, tg', -, -, -, rfl⟩ := hmem
  have hfe : fails_evidence people ht' = false := by
    simpa using hpass
  intro p hp t htrait
  have hall := List.any_eq_false.mp hfe p hp
  rw [htrait] at hall
  cases t with
  | true => simp_all [fails_evidence]
  | false => simp_all [fails_evidence]

/-- Witness for C3: in a one-individual dataset with evidence `true`, the
triple `([], [], ["a"])` is evaluated and its trait subset satisfies the
evidence. -/
theorem claim_C3_evidence_respected_witness :
    satisfiesEvidence onePersonTrait ["a"] :=
  claim_C3_evidence_respected onePersonTrait [] [] ["a"] (by decide)

/-- C5: when every histogram's sum is nonzero, `normalize` succeeds and
divides every bucket of every individual's gene and trait histograms by
that histogram's own sum (so relative proportions are unchanged), and each
resulting distribution sums to exactly 1. -/
theorem claim_C5_normalize_sums_to_one (probs : List (String × PersonProbs))
    (h : ∀ e ∈ probs, geneSum e.2 ≠ 0 ∧ traitSum e.2 ≠ 0) :
    normalize probs = Except.ok (probs.map fun e =>
      (e.1, ⟨e.2.gene2 / geneSum e.2, e.2.gene1 / geneSum e.2, e.2.gene0 / geneSum e.2,
        e.2.traitTrue / traitSum e.2, e.2.traitFalse / traitSum e.2⟩)) ∧
    ∀ e ∈ probs,
      e.2.gene2 / geneSum e.2 + e.2.gene1 / geneSum e.2 + e.2.gene0 / geneSum e.2 = 1 ∧
      e.2.traitTrue / traitSum e.2 + e.2.traitFalse / traitSum e.2 = 1 := by
  constructor
  · induction probs with
    | nil => rfl
    | cons e rest ih =>
      have he := h e (List.mem_cons_self e rest)
      have hrest : ∀ x ∈ rest, geneSum x.2 ≠ 0 ∧ traitSum x.2 ≠ 0 :=
        fun x hx => h x (List.mem_cons_of_mem e hx)
      simp only [normalize, normalizePerson, if_neg he.1, if_neg he.2,
        ih hrest, List.map_cons]
  · intro e he
    obtain ⟨hg, ht⟩ := h e he
    constructor
    · have hsum : e.2.gene2 + e.2.gene1 + e.2.gene0 = geneSum e.2 := rfl
      rw [div_add_div_same, div_add_div_same, hsum]
      exact div_self hg
    · have hsum : e.2.traitTrue + e.2.traitFalse = traitSum e.2 := rfl
      rw [div_add_div_same, hsum]
      exact div_self ht

/-- Witness for C5 at a concrete nonzero histogram table. -/
theorem claim_C5_normalize_sums_to_one_witness :
    normalize demoProbs = Except.ok (demoProbs.map fun e =>
      (e.1, ⟨e.2.gene2 / geneSum e.2, e.2.gene1 / geneSum e.2, e.2.gene0 / geneSum e.2,
        e.2.traitTrue / traitSum e.2, e.2.traitFalse / traitSum e.2⟩)) ∧
    ∀ e ∈ demoProbs,
      e.2.gene2 / geneSum e.2 + e.2.gene1 / geneSum e.2 + e.2.gene0 / geneSum e.2 = 1 ∧
      e.2.traitTrue / traitSum e.2 + e.2.traitFalse / traitSum e.2 = 1 :=
  claim_C5_normalize_sums_to_one demoProbs (by
    intro e he
    simp only [demoProbs, List.mem_singleton] at he
    subst he
    norm_num [geneSum, traitSum])

/-- C6 counterexample: on an all-zero histogram the code does fail — but
with the error value of the modelled `ZeroDivisionError`, which carries no
information at all: two tables whose offending individuals differ
("alice" vs "bob") produce the very same error, so the failure does not
identify the offending individual, and no `NormalizationError` exists in
the code. -/
theorem claim_C6_counterexample :
    normalize [("alice", PersonProbs.zero)] = Except.error () ∧
    normalize [("bob", PersonProbs.zero)] = Except.error () ∧
    normalize [("alice", PersonProbs.zero)] = normalize [("bob", PersonProbs.zero)] := by
  refine ⟨?_, ?_, ?_⟩ <;>
    norm_num [normalize, normalizePerson, geneSum, PersonProbs.zero]

/-- C6 amended: if any individual's accumulated histogram sums to exactly
zero, `normalize` fails (the bucket division raises `ZeroDivisionError`)
rather than silently returning NaN or a skewed distribution — but the
error is uninformative: it is not a `NormalizationError` and does not
identify the offending individual. -/
theorem claim_C6_zero_histogram_fails (probs : List (String × PersonProbs))
    (h : ∃ e ∈ probs, geneSum e.2 = 0 ∨ traitSum e.2 = 0) :
    normalize probs = Except.error () := by
  induction probs with
  | nil => simp at h
  | cons e rest ih =>
    obtain ⟨e', he', hz⟩ := h
    rcases List.mem_cons.mp he' with rfl | hmem
    · rcases hz with hz | hz
      · simp only [normalize, normalizePerson, if_pos hz]
      · by_cases hg : geneSum e'.2 = 0 <;>
          simp only [normalize, normalizePerson, hz, hg, if_pos, if_neg, ite_true,
            ite_false, reduceIte]
    · have hrec := ih ⟨e', hmem, hz⟩
      rw [normalize, hrec]
      cases hnp : normalizePerson e.2 with
      | error err => rfl
      | ok pp => rfl

/-- Witness for the amended C6: a table whose single histogram sums to
zero makes `normalize` fail. -/
theorem claim_C6_zero_histogram_fails_witness :
    normalize [("alice", PersonProbs.zero)] = Except.error () :=
  claim_C6_zero_histogram_fails [("alice", PersonProbs.zero)]
    ⟨("alice", PersonProbs.zero), List.mem_singleton_self _, Or.inl (by
      norm_num [geneSum, PersonProbs.zero])⟩

/-- Under both-or-neither parentage, the instrumented per-person gene
probability never takes the unknown-parent branch and agrees with the
uninstrumented one. -/
theorem personGeneProb_t_spec (f : Person) (og tg : List String)
    (hv : (f.mother = none ∧ f.father = none) ∨ (f.mother ≠ none ∧ f.father ≠ none)) :
    personGeneProb_t f og tg = (personGeneProb f og tg, false) := by
  rcases hv with ⟨hm, hf⟩ | ⟨hm, hf⟩
  · simp [personGeneProb_t, personGeneProb, hm, hf]
  · cases hmo : f.mother with
    | none => exact absurd hmo hm
    | some m =>
    cases hfo : f.father with
    | none => exact absurd hfo hf
    | some fa =>
    simp only [personGeneProb_t, personGeneProb, get_parent_gene_probability_t,
      hmo, hfo]
    rcases geneCount_cases f.name og tg with hg | hg | hg <;> simp [hg]

/-- The instrumented fold, from any accumulator. -/
theorem joint_probability_t_fold (people : List Person) (og tg ht : List String)
    (hv : ∀ p ∈ people, (p.mother = none ∧ p.father = none) ∨
      (p.mother ≠ none ∧ p.father ≠ none)) (init : ℚ × Bool) :
    people.foldl
      (fun acc family =>
        let gp := personGeneProb_t family og tg
        (acc.1 *
          (gp.1 *
            PROBS_trait (geneCount family.name og tg)
              (decide (family.name ∈ ht))),
          acc.2 || gp.2)) init
      = (people.foldl
          (fun joint_p family =>
            joint_p *
              (personGeneProb family og tg *
                PROBS_trait (geneCount family.name og tg)
                  (decide (family.name ∈ ht)))) init.1,
        init.2) := by
  induction people generalizing init with
  | nil => rfl
  | cons f rest ih =>
    have hf := hv f (List.mem_cons_self f rest)
    have hrest : ∀ p ∈ rest, (p.mother = none ∧ p.father = none) ∨
        (p.mother ≠ none ∧ p.father ≠ none) :=
      fun p hp => hv p (List.mem_cons_of_mem f hp)
    simp only [List.foldl_cons, personGeneProb_t_spec f og tg hf, Bool.or_false]
    exact ih hrest _

/-- C8: for a dataset in which every individual has both parents recorded
or neither, the unknown-parent path is dead: evaluating any assignment's
joint probability never invokes `get_unknown_parent_gene_probability`
(the instrumentation flag stays `false`), and the instrumented value is
the ordinary `joint_probability`. -/
theorem claim_C8_unknown_parent_path_dead (people : List Person)
    (og tg ht : List String)
    (hv : ∀ p ∈ people, (p.mother = none ∧ p.father = none) ∨
      (p.mother ≠ none ∧ p.father ≠ none)) :
    (joint_probability_t people og tg ht).2 = false ∧
    (joint_probability_t people og tg ht).1 = joint_probability people og tg ht := by
  rw [joint_probability_t, joint_probability_t_fold people og tg ht hv (1, false)]
  exact ⟨rfl, rfl⟩

/-- Witness for C8 at the two-founders-and-child family. -/
theorem claim_C8_unknown_parent_path_dead_witness :
    (joint_probability_t triofamily ["m"] ["c"] ["c"]).2 = false ∧
    (joint_probability_t triofamily ["m"] ["c"] ["c"]).1
      = joint_probability triofamily ["m"] ["c"] ["c"] :=
  claim_C8_unknown_parent_path_dead triofamily ["m"] ["c"] ["c"] (by decide)

/-! ## Enumeration structure -/

theorem powerset_perm (s : List String) : powerset s ~ s.sublists' :=
  List.range_bind_sublistsLen_perm s

theorem mem_powerset {s t : List String} : t ∈ powerset s ↔ t <+ s := by
  rw [(powerset_perm s).mem_iff, List.mem_sublists']

theorem nodup_powerset {s : List String} (h : s.Nodup) : (powerset s).Nodup :=
  (powerset_perm s).nodup_iff.mpr (List.nodup_sublists'.mpr h)

theorem nodup_evaluatedAssignments (people : List Person)
    (h : (names people).Nodup) : (evaluatedAssignments people).Nodup := by
  unfold evaluatedAssignments
  refine List.nodup_flatMap.mpr ⟨fun ht _ => ?_, ?_⟩
  · refine List.nodup_flatMap.mpr ⟨fun og _ => ?_, ?_⟩
    · exact (nodup_powerset (h.filter _)).map fun a b hab =>
        congrArg (fun p => p.2.1) hab
    · refine ((nodup_powerset h).imp ?_)
      intro og og' hne x hx hx'
      simp only [Function.onFun, List.mem_map] at hx hx'
      obtain ⟨tg, -, rfl⟩ := hx
      obtain ⟨tg', -, heq⟩ := hx'
      exact hne (congrArg (fun p => p.1) heq).symm
  · refine ((nodup_powerset h).filter _).imp ?_
    intro ht ht' hne x hx hx'
    simp only [Function.onFun, List.mem_flatMap, List.mem_map] at hx hx'
    obtain ⟨og, -, tg, -, rfl⟩ := hx
    obtain ⟨og', -, tg', -, heq⟩ := hx'
    exact hne (congrArg (fun p => p.2.2) heq).symm

theorem mem_evaluatedAssignments (people : List Person) (og tg ht : List String) :
    (og, tg, ht) ∈ evaluatedAssignments people ↔
      ht <+ names people ∧ fails_evidence people ht = false ∧
      og <+ names people ∧
      tg <+ (names people).filter fun n => decide (n ∉ og) := by
  unfold evaluatedAssignments
  simp only [List.mem_flatMap, List.mem_filter, List.mem_map, Prod.mk.injEq,
    mem_powerset, Bool.not_eq_eq_eq_not, Bool.not_true]
  constructor
  · rintro ⟨ht', ⟨hht, hpass⟩, og', hog, tg', htg, rfl, rfl, rfl⟩
    exact ⟨hht, by simpa using hpass, hog, htg⟩
  · rintro ⟨hht, hpass, hog, htg⟩
    exact ⟨ht, ⟨hht, by simpa using hpass⟩, og, hog, tg, htg, rfl, rfl, rfl⟩

theorem count_eq_one_of_mem_nodup {α : Type} [BEq α] [LawfulBEq α] {a : α}
    {l : List α} (d : l.Nodup) (h : a ∈ l) : l.count a = 1 := by
  induction l with
  | nil => cases h
  | cons b t ih =>
    rcases List.mem_cons.mp h with rfl | hm
    · rw [List.count_cons_self, List.count_eq_zero.mpr (List.nodup_cons.mp d).1]
    · have hne : a ≠ b := fun hab => (List.nodup_cons.mp d).1 (hab ▸ hm)
      rw [List.count_cons_of_ne hne, ih (List.nodup_cons.mp d).2 hm]

theorem sublist_filter_of_disjoint {og tg ns : List String}
    (htg : tg <+ ns) (hdisj : ∀ x ∈ tg, x ∉ og) :
    tg <+ ns.filter fun n => decide (n ∉ og) := by
  have heq : (tg.filter fun n => decide (n ∉ og)) = tg :=
    List.filter_eq_self.mpr fun a ha => by simpa using hdisj a ha
  calc tg = tg.filter fun n => decide (n ∉ og) := heq.symm
    _ <+ ns.filter fun n => decide (n ∉ og) := htg.filter _

/-- C4: the enumeration is exhaustive and duplicate-free.  For a dataset
with distinct names, each surviving trait subset `ht` combined with each
pair of disjoint subsets (`one_gene`, `two_genes`) of the individual set
is evaluated exactly once (all remaining individuals implicitly carrying
zero copies); and for a 1-individual dataset with no evidence exactly
3 × 2 = 6 candidate assignments are evaluated. -/
theorem claim_C4_enumeration_exhaustive :
    (∀ (people : List Person) (og tg ht : List String),
      (names people).Nodup →
      ht <+ names people → fails_evidence people ht = false →
      og <+ names people → tg <+ names people → (∀ x ∈ tg, x ∉ og) →
      (evaluatedAssignments people).count (og, tg, ht) = 1) ∧
    (evaluatedAssignments onePerson).length = 6 := by
  constructor
  · intro people og tg ht hnd hht hfe hog htg hdisj
    exact count_eq_one_of_mem_nodup (nodup_evaluatedAssignments people hnd)
      ((mem_evaluatedAssignments people og tg ht).mpr
        ⟨hht, hfe, hog, sublist_filter_of_disjoint htg hdisj⟩)
  · decide

/-- Witness for C4: the unique evaluation of the assignment giving the
single individual two gene copies and no trait. -/
theorem claim_C4_enumeration_exhaustive_witness :
    (evaluatedAssignments onePerson).count ([], ["p"], []) = 1 ∧
    (evaluatedAssignments onePerson).length = 6 :=
  ⟨claim_C4_enumeration_exhaustive.1 onePerson [] ["p"] [] (by decide)
      (by decide) (by decide) (by decide) (by decide) (by decide),
    claim_C4_enumeration_exhaustive.2⟩

/-! ## Summation toolkit for the marginalization argument -/

theorem sumOver_nil (φ : List String → ℚ) : sumOver [] φ = 0 := rfl

theorem sumOver_append (L₁ L₂ : List (List String)) (φ : List String → ℚ) :
    sumOver (L₁ ++ L₂) φ = sumOver L₁ φ + sumOver L₂ φ := by
  simp [sumOver]

theorem sumOver_map (h : List String → List String) (L : List (List String))
    (φ : List String → ℚ) :
    sumOver (L.map h) φ = sumOver L fun s => φ (h s) := by
  unfold sumOver
  rw [List.map_map]
  rfl

theorem sumOver_congr {L : List (List String)} {φ ψ : List String → ℚ}
    (h : ∀ s ∈ L, φ s = ψ s) : sumOver L φ = sumOver L ψ :=
  congrArg List.sum (List.map_congr_left h)

theorem sumOver_mul_left (L : List (List String)) (c : ℚ) (φ : List String → ℚ) :
    sumOver L (fun s => c * φ s) = c * sumOver L φ := by
  induction L with
  | nil => simp [sumOver]
  | cons s t ih => simp only [sumOver, List.map_cons, List.sum_cons] at ih ⊢; rw [ih]; ring

theorem sumOver_add (L : List (List String)) (φ ψ : List String → ℚ) :
    sumOver L (fun s => φ s + ψ s) = sumOver L φ + sumOver L ψ := by
  induction L with
  | nil => simp [sumOver]
  | cons s t ih => simp only [sumOver, List.map_cons, List.sum_cons] at ih ⊢; rw [ih]; ring

theorem sumOver_zero (L : List (List String)) : sumOver L (fun _ => 0) = 0 := by
  induction L with
  | nil => rfl
  | cons s t ih => simp only [sumOver, List.map_cons, List.sum_cons] at ih ⊢; rw [ih]; ring

theorem sumOver_cons (s : List String) (L : List (List String))
    (φ : List String → ℚ) :
    sumOver (s :: L) φ = φ s + sumOver L φ := by
  simp [sumOver]

theorem sumOver_comm (L₁ L₂ : List (List String))
    (g : List String → List String → ℚ) :
    sumOver L₁ (fun a => sumOver L₂ (g a))
      = sumOver L₂ fun b => sumOver L₁ fun a => g a b := by
  induction L₁ with
  | nil =>
    rw [sumOver_nil, ← sumOver_zero L₂]
    exact (sumOver_congr fun b _ => rfl).symm
  | cons a t ih =>
    rw [sumOver_cons, ih,
      ← sumOver_add L₂ (g a) fun b => sumOver t fun a' => g a' b]
    exact sumOver_congr fun b _ => (sumOver_cons a t fun a' => g a' b).symm

theorem prodOver_cons (a : String) (ns : List String) (f : String → ℚ) :
    prodOver (a :: ns) f = f a * prodOver ns f := by
  simp [prodOver]

theorem prodOver_congr {ns : List String} {f g : String → ℚ}
    (h : ∀ x ∈ ns, f x = g x) : prodOver ns f = prodOver ns g :=
  congrArg List.prod (List.map_congr_left h)

theorem prodOver_one (ns : List String) : prodOver ns (fun _ => 1) = 1 := by
  induction ns with
  | nil => rfl
  | cons a t ih => rw [prodOver_cons, ih, mul_one]

theorem prodOver_single (ns : List String) (h : ns.Nodup) (x : String)
    (hx : x ∈ ns) (c : ℚ) :
    prodOver ns (fun n => if n = x then c else 1) = c := by
  induction ns with
  | nil => cases hx
  | cons a l ih =>
    obtain ⟨ha, hl⟩ := List.nodup_cons.mp h
    rcases List.mem_cons.mp hx with rfl | hxl
    · rw [prodOver_cons, if_pos rfl,
        prodOver_congr fun n hn => if_neg fun he => ha (by rw [← he]; exact hn),
        prodOver_one, mul_one]
    · have hax : a ≠ x := fun he => ha (by rw [he]; exact hxl)
      rw [prodOver_cons, if_neg hax, ih hl hxl, one_mul]

/-- Summing a per-person product over every trait subset factorizes into a
product of per-person sums over the two trait values. -/
theorem sum_sublists_trait_factor (ns : List String) (h : ns.Nodup)
    (k : String → Bool → ℚ) :
    sumOver ns.sublists' (fun ht => prodOver ns fun x => k x (decide (x ∈ ht)))
      = prodOver ns fun x => k x false + k x true := by
  induction ns with
  | nil => simp [sumOver, prodOver]
  | cons a l ih =>
    obtain ⟨ha, hl⟩ := List.nodup_cons.mp h
    rw [List.sublists'_cons, sumOver_append, sumOver_map]
    have e1 : sumOver l.sublists'
          (fun ht => prodOver (a :: l) fun x => k x (decide (x ∈ ht)))
        = k a false *
          sumOver l.sublists' (fun ht => prodOver l fun x => k x (decide (x ∈ ht))) := by
      rw [← sumOver_mul_left]
      refine sumOver_congr fun s hs => ?_
      have has : a ∉ s := fun hm => ha ((List.mem_sublists'.mp hs).subset hm)
      rw [prodOver_cons]
      congr 1
      simp [has]
    have e2 : sumOver l.sublists'
          (fun s => prodOver (a :: l) fun x => k x (decide (x ∈ a :: s)))
        = k a true *
          sumOver l.sublists' (fun ht => prodOver l fun x => k x (decide (x ∈ ht))) := by
      rw [← sumOver_mul_left]
      refine sumOver_congr fun s hs => ?_
      rw [prodOver_cons]
      have h2 : prodOver l (fun x => k x (decide (x ∈ a :: s)))
          = prodOver l fun x => k x (decide (x ∈ s)) :=
        prodOver_congr fun x hx => by
          have hxa : x ≠ a := fun he => ha (by rw [← he]; exact hx)
          simp [List.mem_cons, hxa]
      rw [h2]
      congr 1
      simp
    rw [e1, e2, ih hl, prodOver_cons]
    ring

/-- Summing a per-person product over every pair of disjoint gene subsets
factorizes into a product of per-person sums over the three gene counts. -/
theorem sum_sublists_gene_factor (ns : List String) (h : ns.Nodup)
    (hf : String → Nat → ℚ) :
    sumOver ns.sublists' (fun og =>
      sumOver ((ns.filter fun n => decide (n ∉ og)).sublists') fun tg =>
        prodOver ns fun x => hf x (geneCount x og tg))
      = prodOver ns fun x => hf x 0 + hf x 1 + hf x 2 := by
  induction ns with
  | nil => simp [sumOver, prodOver]
  | cons a l ih =>
    obtain ⟨ha, hl⟩ := List.nodup_cons.mp h
    rw [List.sublists'_cons, sumOver_append, sumOver_map]
    have hpart1 : sumOver l.sublists' (fun og =>
          sumOver (((a :: l).filter fun n => decide (n ∉ og)).sublists') fun tg =>
            prodOver (a :: l) fun x => hf x (geneCount x og tg))
        = (hf a 0 + hf a 2) *
          sumOver l.sublists' (fun og =>
            sumOver ((l.filter fun n => decide (n ∉ og)).sublists') fun tg =>
              prodOver l fun x => hf x (geneCount x og tg)) := by
      rw [← sumOver_mul_left]
      refine sumOver_congr fun s hs => ?_
      have hs' : s <+ l := List.mem_sublists'.mp hs
      have has : a ∉ s := fun hm => ha (hs'.subset hm)
      have hfil : ((a :: l).filter fun n => decide (n ∉ s))
          = a :: l.filter fun n => decide (n ∉ s) :=
        List.filter_cons_of_pos (by simpa using has)
      rw [hfil, List.sublists'_cons, sumOver_append, sumOver_map]
      have hafl : a ∉ l.filter fun n => decide (n ∉ s) :=
        fun hm => ha (List.mem_of_mem_filter hm)
      have i1 : sumOver (l.filter fun n => decide (n ∉ s)).sublists'
            (fun tg => prodOver (a :: l) fun x => hf x (geneCount x s tg))
          = hf a 0 *
            sumOver (l.filter fun n => decide (n ∉ s)).sublists'
              (fun tg => prodOver l fun x => hf x (geneCount x s tg)) := by
        rw [← sumOver_mul_left]
        refine sumOver_congr fun u hu => ?_
        have hau : a ∉ u := fun hm => hafl ((List.mem_sublists'.mp hu).subset hm)
        rw [prodOver_cons]
        congr 1
        simp [geneCount, hau, has]
      have i2 : sumOver (l.filter fun n => decide (n ∉ s)).sublists'
            (fun u => prodOver (a :: l) fun x => hf x (geneCount x s (a :: u)))
          = hf a 2 *
            sumOver (l.filter fun n => decide (n ∉ s)).sublists'
              (fun tg => prodOver l fun x => hf x (geneCount x s tg)) := by
        rw [← sumOver_mul_left]
        refine sumOver_congr fun u hu => ?_
        rw [prodOver_cons]
        have hhead : hf a (geneCount a s (a :: u)) = hf a 2 := by
          simp [geneCount]
        have htail : prodOver l (fun x => hf x (geneCount x s (a :: u)))
            = prodOver l fun x => hf x (geneCount x s u) :=
          prodOver_congr fun x hx => by
            have hxa : x ≠ a := fun he => ha (by rw [← he]; exact hx)
            simp [geneCount, List.mem_cons, hxa]
        rw [hhead, htail]
      rw [i1, i2]
      ring
    have hpart2 : sumOver l.sublists' (fun s =>
          sumOver (((a :: l).filter fun n => decide (n ∉ a :: s)).sublists') fun tg =>
            prodOver (a :: l) fun x => hf x (geneCount x (a :: s) tg))
        = hf a 1 *
          sumOver l.sublists' (fun og =>
            sumOver ((l.filter fun n => decide (n ∉ og)).sublists') fun tg =>
              prodOver l fun x => hf x (geneCount x og tg)) := by
      rw [← sumOver_mul_left]
      refine sumOver_congr fun s hs => ?_
      have hfil : ((a :: l).filter fun n => decide (n ∉ a :: s))
          = l.filter fun n => decide (n ∉ s) := by
        rw [List.filter_cons_of_neg (by simp)]
        refine List.filter_congr fun x hx => ?_
        have hxa : x ≠ a := fun he => ha (by rw [← he]; exact hx)
        simp [List.mem_cons, hxa]
      rw [hfil, ← sumOver_mul_left]
      refine sumOver_congr fun u hu => ?_
      have hau : a ∉ u := fun hm =>
        ha (List.mem_of_mem_filter ((List.mem_sublists'.mp hu).subset hm))
      rw [prodOver_cons]
      have hhead : hf a (geneCount a (a :: s) u) = hf a 1 := by
        simp [geneCount, hau]
      have htail : prodOver l (fun x => hf x (geneCount x (a :: s) u))
          = prodOver l fun x => hf x (geneCount x s u) :=
        prodOver_congr fun x hx => by
          have hxa : x ≠ a := fun he => ha (by rw [← he]; exact hx)
          simp [geneCount, List.mem_cons, hxa]
      rw [hhead, htail]
    rw [hpart1, hpart2, ih hl, prodOver_cons]
    ring

/-- The full enumeration sum — trait subsets, one-copy subsets, two-copy
subsets — of a per-person product factorizes into a product of per-person
sums over the six (gene count, trait) values. -/
theorem triple_factor (ns : List String) (h : ns.Nodup)
    (f : String → Nat → Bool → ℚ) :
    sumOver ns.sublists' (fun ht => sumOver ns.sublists' fun og =>
      sumOver ((ns.filter fun n => decide (n ∉ og)).sublists') fun tg =>
        prodOver ns fun n => f n (geneCount n og tg) (decide (n ∈ ht)))
      = prodOver ns fun n =>
          (f n 0 false + f n 0 true) + (f n 1 false + f n 1 true)
            + (f n 2 false + f n 2 true) := by
  rw [sumOver_comm]
  refine Eq.trans (sumOver_congr fun og hog => Eq.trans (sumOver_comm _ _ _)
    (sumOver_congr fun tg htg =>
      sum_sublists_trait_factor ns h fun x t => f x (geneCount x og tg) t)) ?_
  exact sum_sublists_gene_factor ns h fun n g => f n g false + f n g true

theorem fails_evidence_of_no_evidence (people : List Person)
    (h : ∀ p ∈ people, p.trait = none) (ht : List String) :
    fails_evidence people ht = false := by
  rw [fails_evidence, List.any_eq_false]
  intro p hp
  rw [h p hp]
  simp

theorem sum_map_flatMap {α β : Type} (l : List α) (f : α → List β) (g : β → ℚ) :
    ((l.flatMap f).map g).sum = (l.map fun a => ((f a).map g).sum).sum := by
  induction l with
  | nil => rfl
  | cons a t ih => simp [List.flatMap_cons, ih]

theorem sumOver_powerset (s : List String) (φ : List String → ℚ) :
    sumOver (powerset s) φ = sumOver s.sublists' φ :=
  ((powerset_perm s).map φ).sum_eq

/-- With no recorded evidence, the evidence filter keeps every trait
subset, and the accumulation over `main`'s enumeration is the triple
nested sum over all subsets. -/
theorem sum_evaluated_of_no_evidence (people : List Person)
    (hnoev : ∀ p ∈ people, p.trait = none)
    (F : List String × List String × List String → ℚ) :
    ((evaluatedAssignments people).map F).sum
      = sumOver (names people).sublists' fun ht =>
          sumOver (names people).sublists' fun og =>
            sumOver (((names people).filter fun n => decide (n ∉ og)).sublists')
              fun tg => F (og, tg, ht) := by
  have step1 : ((evaluatedAssignments people).map F).sum
      = sumOver (powerset (names people)) fun ht =>
          sumOver (powerset (names people)) fun og =>
            sumOver (powerset ((names people).filter fun n => decide (n ∉ og)))
              fun tg => F (og, tg, ht) := by
    unfold evaluatedAssignments
    rw [List.filter_eq_self.mpr fun ht _ => by
      rw [fails_evidence_of_no_evidence people hnoev ht]; rfl]
    rw [sum_map_flatMap]
    unfold sumOver
    refine congrArg List.sum (List.map_congr_left fun ht hht => ?_)
    rw [sum_map_flatMap]
    refine congrArg List.sum (List.map_congr_left fun og hog => ?_)
    rw [List.map_map]
    rfl
  refine step1.trans ?_
  refine (sumOver_powerset _ _).trans ?_
  refine sumOver_congr fun ht _ => ?_
  refine (sumOver_powerset _ _).trans ?_
  exact sumOver_congr fun og _ => sumOver_powerset _ _

/-- For a founders-only dataset the joint probability is a pure product of
prior times trait likelihood over the individuals. -/
theorem joint_probability_founders (people : List Person)
    (hpar : ∀ p ∈ people, p.mother = none ∧ p.father = none)
    (og tg ht : List String) :
    joint_probability people og tg ht
      = prodOver (names people) fun n =>
          PROBS_gene (geneCount n og tg) *
            PROBS_trait (geneCount n og tg) (decide (n ∈ ht)) := by
  rw [joint_probability_eq_prod]
  unfold prodOver names
  rw [List.map_map]
  refine congrArg List.prod (List.map_congr_left fun p hp => ?_)
  have h := hpar p hp
  simp [Function.comp, personGeneProb, h.1, h.2]

/-- Merging a guard on one distinguished individual into that individual's
factor of the product. -/
theorem ite_prodOver_single (c : Prop) [Decidable c] (ns : List String)
    (h : ns.Nodup) (x : String) (hx : x ∈ ns) (B : String → ℚ) :
    (if c then prodOver ns B else 0)
      = prodOver ns fun n => if n = x then (if c then B n else 0) else B n := by
  induction ns with
  | nil => cases hx
  | cons a l ih =>
    obtain ⟨ha, hl⟩ := List.nodup_cons.mp h
    rcases List.mem_cons.mp hx with rfl | hxl
    · by_cases hc : c
      · rw [if_pos hc]
        exact prodOver_congr fun n _ => by simp [hc]
      · rw [if_neg hc, prodOver_cons, if_pos rfl, if_neg hc, zero_mul]
    · have hax : a ≠ x := fun he => ha (by rw [he]; exact hxl)
      by_cases hc : c
      · rw [if_pos hc, prodOver_cons, prodOver_cons, if_neg hax]
        have hih := ih hl hxl
        rw [if_pos hc] at hih
        rw [← hih]
      · rw [if_neg hc, prodOver_cons, if_neg hax]
        have hih := ih hl hxl
        rw [if_neg hc] at hih
        rw [← hih, mul_zero]

/-- For a founders-only, evidence-free dataset, the total mass accumulated
into a person's gene bucket `g` is exactly the prior `PROBS_gene g`. -/
theorem contribGene_founders (people : List Person)
    (hnd : (names people).Nodup)
    (hf : ∀ p ∈ people, p.mother = none ∧ p.father = none ∧ p.trait = none)
    (x : String) (hx : x ∈ names people) (g : Nat)
    (hg : g = 0 ∨ g = 1 ∨ g = 2) :
    contribGene people x g = PROBS_gene g := by
  have hnoev : ∀ p ∈ people, p.trait = none := fun p hp => (hf p hp).2.2
  have hpar : ∀ p ∈ people, p.mother = none ∧ p.father = none :=
    fun p hp => ⟨(hf p hp).1, (hf p hp).2.1⟩
  calc contribGene people x g
      = sumOver (names people).sublists' (fun ht =>
          sumOver (names people).sublists' fun og =>
            sumOver (((names people).filter fun n => decide (n ∉ og)).sublists')
              fun tg =>
                if geneCount x og tg = g then joint_probability people og tg ht
                else 0) :=
        sum_evaluated_of_no_evidence people hnoev _
    _ = sumOver (names people).sublists' (fun ht =>
          sumOver (names people).sublists' fun og =>
            sumOver (((names people).filter fun n => decide (n ∉ og)).sublists')
              fun tg =>
                prodOver (names people) fun n =>
                  if n = x then
                    (if geneCount n og tg = g then
                      PROBS_gene (geneCount n og tg) *
                        PROBS_trait (geneCount n og tg) (decide (n ∈ ht))
                    else 0)
                  else
                    PROBS_gene (geneCount n og tg) *
                      PROBS_trait (geneCount n og tg) (decide (n ∈ ht))) := by
        refine sumOver_congr fun ht _ => sumOver_congr fun og _ =>
          sumOver_congr fun tg _ => ?_
        rw [joint_probability_founders people hpar og tg ht,
          ite_prodOver_single _ (names people) hnd x hx _]
        refine prodOver_congr fun n hn => ?_
        by_cases hnx : n = x
        · subst hnx; simp
        · simp [hnx]
    _ = (prodOver (names people) fun n => if n = x then PROBS_gene g else 1) := by
        rw [triple_factor (names people) hnd fun n gc t =>
          if n = x then
            (if gc = g then PROBS_gene gc * PROBS_trait gc t else 0)
          else PROBS_gene gc * PROBS_trait gc t]
        refine prodOver_congr fun n hn => ?_
        by_cases hnx : n = x
        · subst hnx
          rcases hg with rfl | rfl | rfl <;>
            norm_num [PROBS_gene, PROBS_trait]
        · simp only [if_neg hnx]
          norm_num [PROBS_gene, PROBS_trait]
    _ = PROBS_gene g := prodOver_single (names people) hnd x hx _

/-- For a founders-only, evidence-free dataset, the total mass accumulated
into a person's trait bucket `t` is the prior-weighted trait likelihood. -/
theorem contribTrait_founders (people : List Person)
    (hnd : (names people).Nodup)
    (hf : ∀ p ∈ people, p.mother = none ∧ p.father = none ∧ p.trait = none)
    (x : String) (hx : x ∈ names people) (t : Bool) :
    contribTrait people x t = (if t then 329/10000 else 9671/10000) := by
  have hnoev : ∀ p ∈ people, p.trait = none := fun p hp => (hf p hp).2.2
  have hpar : ∀ p ∈ people, p.mother = none ∧ p.father = none :=
    fun p hp => ⟨(hf p hp).1, (hf p hp).2.1⟩
  calc contribTrait people x t
      = sumOver (names people).sublists' (fun ht =>
          sumOver (names people).sublists' fun og =>
            sumOver (((names people).filter fun n => decide (n ∉ og)).sublists')
              fun tg =>
                if decide (x ∈ ht) = t then joint_probability people og tg ht
                else 0) :=
        sum_evaluated_of_no_evidence people hnoev _
    _ = sumOver (names people).sublists' (fun ht =>
          sumOver (names people).sublists' fun og =>
            sumOver (((names people).filter fun n => decide (n ∉ og)).sublists')
              fun tg =>
                prodOver (names people) fun n =>
                  if n = x then
                    (if decide (n ∈ ht) = t then
                      PROBS_gene (geneCount n og tg) *
                        PROBS_trait (geneCount n og tg) (decide (n ∈ ht))
                    else 0)
                  else
                    PROBS_gene (geneCount n og tg) *
                      PROBS_trait (geneCount n og tg) (decide (n ∈ ht))) := by
        refine sumOver_congr fun ht _ => sumOver_congr fun og _ =>
          sumOver_congr fun tg _ => ?_
        rw [joint_probability_founders people hpar og tg ht,
          ite_prodOver_single _ (names people) hnd x hx _]
        refine prodOver_congr fun n hn => ?_
        by_cases hnx : n = x
        · subst hnx; simp
        · simp [hnx]
    _ = (prodOver (names people) fun n =>
          if n = x then (if t then 329/10000 else 9671/10000) else 1) := by
        rw [triple_factor (names people) hnd fun n gc tv =>
          if n = x then
            (if tv = t then PROBS_gene gc * PROBS_trait gc tv else 0)
          else PROBS_gene gc * PROBS_trait gc tv]
        refine prodOver_congr fun n hn => ?_
        by_cases hnx : n = x
        · subst hnx
          cases t <;> norm_num [PROBS_gene, PROBS_trait]
        · simp only [if_neg hnx]
          norm_num [PROBS_gene, PROBS_trait]
    _ = (if t then 329/10000 else 9671/10000) :=
        prodOver_single (names people) hnd x hx _

/-! ## The accumulation loop as bucketwise sums -/

theorem addPP_zero (x : PersonProbs) : addPP x PersonProbs.zero = x := by
  cases x
  simp [addPP, PersonProbs.zero]

theorem zero_addPP (x : PersonProbs) : addPP PersonProbs.zero x = x := by
  cases x
  simp [addPP, PersonProbs.zero]

theorem addPP_assoc (x y z : PersonProbs) :
    addPP (addPP x y) z = addPP x (addPP y z) := by
  simp [addPP, add_assoc]

theorem sumPP_cons (b : PersonProbs) (L : List PersonProbs) :
    sumPP (b :: L) = addPP b (sumPP L) := rfl

theorem personProbs_ext {x y : PersonProbs} (h2 : x.gene2 = y.gene2)
    (h1 : x.gene1 = y.gene1) (h0 : x.gene0 = y.gene0)
    (ht : x.traitTrue = y.traitTrue) (hf : x.traitFalse = y.traitFalse) :
    x = y := by
  cases x
  cases y
  simp only [PersonProbs.mk.injEq]
  exact ⟨h2, h1, h0, ht, hf⟩

theorem update_eq (probs : List (String × PersonProbs))
    (a : List String × List String × List String) (p : ℚ) :
    update probs a.1 a.2.1 a.2.2 p
      = probs.map fun e => (e.1, addPP e.2 (bumpDelta e.1 a p)) := rfl

theorem foldl_update (jp : List String × List String × List String → ℚ)
    (l : List (List String × List String × List String))
    (probs : List (String × PersonProbs)) :
    l.foldl (fun pr a => update pr a.1 a.2.1 a.2.2 (jp a)) probs
      = probs.map fun e =>
          (e.1, addPP e.2 (sumPP (l.map fun a => bumpDelta e.1 a (jp a)))) := by
  induction l generalizing probs with
  | nil =>
    simp only [List.foldl_nil, List.map_nil]
    have h : (fun e : String × PersonProbs =>
        (e.1, addPP e.2 (sumPP []))) = fun e => e := by
      funext e
      rw [show sumPP [] = PersonProbs.zero from rfl, addPP_zero]
    rw [h]
    exact (List.map_id probs).symm
  | cons a t ih =>
    rw [List.foldl_cons, update_eq, ih, List.map_map]
    refine List.map_congr_left fun e he => ?_
    simp only [Function.comp]
    rw [List.map_cons, sumPP_cons, ← addPP_assoc]

theorem sumPP_components (L : List (List String × List String × List String))
    (name : String) (jp : List String × List String × List String → ℚ) :
    sumPP (L.map fun a => bumpDelta name a (jp a))
      = ⟨(L.map fun a => if geneCount name a.1 a.2.1 = 2 then jp a else 0).sum,
          (L.map fun a => if geneCount name a.1 a.2.1 = 1 then jp a else 0).sum,
          (L.map fun a => if geneCount name a.1 a.2.1 = 0 then jp a else 0).sum,
          (L.map fun a => if decide (name ∈ a.2.2) then jp a else 0).sum,
          (L.map fun a => if decide (name ∈ a.2.2) then 0 else jp a).sum⟩ := by
  induction L with
  | nil => rfl
  | cons a t ih =>
    simp only [List.map_cons, sumPP_cons, ih, List.sum_cons]
    rfl

theorem accumulated_eq (people : List Person) :
    accumulatedProbabilities people
      = people.map fun p =>
          (p.name,
            ⟨contribGene people p.name 2, contribGene people p.name 1,
              contribGene people p.name 0, contribTrait people p.name true,
              contribTrait people p.name false⟩) := by
  rw [accumulatedProbabilities, initialProbabilities,
    foldl_update (fun a => joint_probability people a.1 a.2.1 a.2.2),
    List.map_map]
  refine List.map_congr_left fun p hp => ?_
  simp only [Function.comp]
  rw [zero_addPP, sumPP_components]
  refine congrArg (Prod.mk p.name) ?_
  refine personProbs_ext rfl rfl rfl ?_ ?_
  · exact congrArg List.sum (List.map_congr_left fun a _ => by
      cases h : decide (p.name ∈ a.2.2) <;> simp [contribTrait, h])
  · exact congrArg List.sum (List.map_congr_left fun a _ => by
      cases h : decide (p.name ∈ a.2.2) <;> simp [contribTrait, h])

theorem normalize_of_fixed (probs : List (String × PersonProbs))
    (h : ∀ e ∈ probs, normalizePerson e.2 = Except.ok e.2) :
    normalize probs = Except.ok probs := by
  induction probs with
  | nil => rfl
  | cons e rest ih =>
    simp only [normalize, h e (List.mem_cons_self e rest),
      ih fun x hx => h x (List.mem_cons_of_mem e hx)]

theorem normalizePerson_prior :
    normalizePerson ⟨1/100, 3/100, 96/100, 329/10000, 9671/10000⟩
      = Except.ok ⟨1/100, 3/100, 96/100, 329/10000, 9671/10000⟩ := by
  norm_num [normalizePerson, geneSum, traitSum]

/-- C9: for a founders-only dataset with no trait evidence — whatever the
number of unrelated founders — both the enumeration and normalization
leave every founder's gene-count distribution at exactly the gene prior
(0.96 for 0 copies, 0.03 for 1, 0.01 for 2). -/
theorem claim_C9_founders_posterior_is_prior (people : List Person)
    (hnd : (names people).Nodup)
    (hf : ∀ p ∈ people, p.mother = none ∧ p.father = none ∧ p.trait = none) :
    normalize (accumulatedProbabilities people)
      = Except.ok (people.map fun p =>
          (p.name, ⟨1/100, 3/100, 96/100, 329/10000, 9671/10000⟩)) := by
  have hacc : accumulatedProbabilities people
      = people.map fun p =>
          (p.name, (⟨1/100, 3/100, 96/100, 329/10000, 9671/10000⟩ : PersonProbs)) := by
    rw [accumulated_eq]
    refine List.map_congr_left fun p hp => ?_
    have hx : p.name ∈ names people := by
      unfold names
      exact List.mem_map_of_mem _ hp
    rw [contribGene_founders people hnd hf p.name hx 2 (by norm_num),
      contribGene_founders people hnd hf p.name hx 1 (by norm_num),
      contribGene_founders people hnd hf p.name hx 0 (by norm_num),
      contribTrait_founders people hnd hf p.name hx true,
      contribTrait_founders people hnd hf p.name hx false]
    norm_num [PROBS_gene]
  rw [hacc]
  refine normalize_of_fixed _ fun e he => ?_
  obtain ⟨p, -, rfl⟩ := List.mem_map.mp he
  exact normalizePerson_prior

/-- Witness for C9 at a concrete dataset of two unrelated founders. -/
theorem claim_C9_founders_posterior_is_prior_witness :
    normalize (accumulatedProbabilities founders2)
      = Except.ok (founders2.map fun p =>
          (p.name, ⟨1/100, 3/100, 96/100, 329/10000, 9671/10000⟩)) :=
  claim_C9_founders_posterior_is_prior founders2 (by decide) (by decide)

end Heredity
